import Mathlib

/-
Verification development for the leaf-segment ID allocation service.

The Go sources are shallowly embedded:
* `Segment`, `BizAlloc`, `Alloc` mirror the structs of the allocator file
  (mutexes are dropped; every operation below models one critical section,
  so states are observed only at mutex boundaries).
* The channel slice `waiting` is modelled by its length: each queued
  wakeup handle is one unit, `wakeup` closes and drops all of them.
* Go `int64` values are modelled as `Int` (the allocator arithmetic is
  far from the 64-bit boundary and the sources nowhere rely on wrap).
* Fallible operations (slice indexing that Go would panic on, store
  calls) return `Option` / `Except`.
* The database table `segments` is modelled as an association list from
  `biz_tag` to its row; `Data.NextId` performs the transactional
  UPDATE-then-SELECT of the source on that list.
* The detached refill goroutine `fillSegments` is modelled as a loop
  consuming a list of store-advance outcomes (one entry per store call);
  the concurrent interleaving of consumers and the worker is modelled by
  the command trace semantics `stepCmd` / `runCmds`, in which every
  command is one critical section of the source.
-/

set_option maxHeartbeats 1000000

namespace LeafSegment

/-- Go struct `Segment`: a half-open range of ids with a consumption
cursor.  Field order follows the source: `offset`, `left`, `right`. -/
structure Segment where
  offset : Int
  left : Int
  right : Int
  deriving Repr, DecidableEq

/-- Go struct `BizAlloc` (mutex dropped, the waiting slice of channels
replaced by its length). -/
structure BizAlloc where
  bizTag : String
  segments : List Segment
  isAllocating : Bool
  waiting : Nat
  deriving Repr, DecidableEq

/-- `BizAlloc.leftCount`: sum over the buffered segments of
`right - left - offset`. -/
def BizAlloc.leftCount (b : BizAlloc) : Int :=
  (b.segments.map (fun s => s.right - s.left - s.offset)).sum

/-- `BizAlloc.leftCountWithMutex`: same value, computed under the mutex. -/
def BizAlloc.leftCountWithMutex (b : BizAlloc) : Int :=
  b.leftCount

/-- `BizAlloc.newSegment`, given the values returned by the store:
`seg = &Segment\x7b\x7d; seg.left = maxId - step; seg.right = maxId`
(the Go zero value leaves `offset = 0`). -/
def BizAlloc.newSegment (maxId step : Int) : Segment :=
  { offset := 0, left := maxId - step, right := maxId }

/-- `BizAlloc.wakeup`: close every queued channel and truncate the
waiting slice to length 0. -/
def BizAlloc.wakeup (b : BizAlloc) : BizAlloc :=
  { b with waiting := 0 }

/-- The `LEAVE` epilogue of `fillSegments`: `isAllocating = false`. -/
def BizAlloc.leave (b : BizAlloc) : BizAlloc :=
  { b with isAllocating := false }

/-- Appending one wakeup handle to the waiting slice. -/
def BizAlloc.enqueueWaiter (b : BizAlloc) : BizAlloc :=
  { b with waiting := b.waiting + 1 }

/-- `BizAlloc.popNextId`.  Go indexes `segments[0]` unconditionally and
would panic on an empty slice, hence the `Option`:
`nextId = segments[0].left + segments[0].offset; segments[0].offset++;`
and the front segment is dropped when `nextId+1 >= segments[0].right`. -/
def BizAlloc.popNextId (b : BizAlloc) : Option (Int × BizAlloc) :=
  match b.segments with
  | [] => none
  | s :: rest =>
    let nextId := s.left + s.offset
    if nextId + 1 ≥ s.right then
      some (nextId, { b with segments := rest })
    else
      some (nextId, { b with segments := { s with offset := s.offset + 1 } :: rest })

/-- One row of the store table `segments`. -/
structure SegRow where
  max_id : Int
  step : Int
  deriving Repr, DecidableEq

/-- First-match lookup in an association list keyed by `biz_tag`
(the primary key of the table, so at most one row matches). -/
def mapGet {α : Type} (l : List (String × α)) (k : String) : Option α :=
  match l with
  | [] => none
  | kv :: rest => if kv.1 = k then some kv.2 else mapGet rest k

/-- `Data.NextId`: within one transaction, run
`UPDATE segments SET max_id = max_id + step WHERE biz_tag = ?`
(0 rows affected yields the error `biz_tag not found`), then
`SELECT max_id, step` for the same tag, then commit.  The returned store
is the committed table. -/
def Data.NextId (store : List (String × SegRow)) (bizTag : String) :
    Except String (List (String × SegRow) × Int × Int) :=
  match mapGet store bizTag with
  | none => Except.error "biz_tag not found"
  | some row =>
    let row2 : SegRow := { row with max_id := row.max_id + row.step }
    Except.ok
      (store.map (fun kv => if kv.1 = bizTag then (kv.1, row2) else kv),
        row2.max_id, row2.step)

/-- Step 2 of `BizAlloc.nextId`:
`if len(segments) <= 1 && !isAllocating then isAllocating = true; go fillSegments()`.
The second component records whether a refill worker was spawned. -/
def BizAlloc.triggerFill (b : BizAlloc) : BizAlloc × Bool :=
  if b.segments.length ≤ 1 ∧ b.isAllocating = false then
    ({ b with isAllocating := true }, true)
  else
    (b, false)

/-- The state `nextId` publishes before releasing the mutex on the slow
path: the refill trigger has run and one wakeup handle has been queued. -/
def BizAlloc.slowWaitState (b : BizAlloc) : BizAlloc :=
  b.triggerFill.1.enqueueWaiter

/-- The slow-path wait duration in milliseconds:
`select` on the wakeup channel and a 2-second timer returns after the
earlier of the two (`2 * time.Second = 2000 ms`). -/
def waitMillis (wakeDelay : Int) : Int :=
  min wakeDelay 2000

/-- The observable steps of one `nextId` call beyond the fast path. -/
inductive WaitEvent where
  | enqueue
  | timedWait (millis : Int)
  | retry
  deriving Repr, DecidableEq

/-- Result of one `BizAlloc.nextId` call: the returned value or error,
the final allocator state, whether a refill worker was spawned, and the
trace of slow-path steps taken. -/
structure NextIdRun where
  result : Except String Int
  state : BizAlloc
  spawned : Bool
  trace : List WaitEvent
  deriving Repr

/-- `BizAlloc.nextId`.  The two critical sections of the source are
separated by the slow-path wait; `intf` is the interference of the
detached refill worker on the allocator state during that wait (the
state it leaves for the retry to observe).  `wakeDelay` is the time at
which the wakeup handle fires; the `select` bounds the actual wait by
the 2000 ms timer.  `none` models the panic Go would hit if `popNextId`
ran on an empty buffer (its callers guard it by `leftCount() != 0`). -/
def BizAlloc.nextId (b : BizAlloc) (intf : BizAlloc → BizAlloc) (wakeDelay : Int) :
    Option NextIdRun :=
  if b.leftCount ≠ 0 then
    match b.popNextId with
    | none => none
    | some (id, b1) =>
      some { result := Except.ok id, state := b1.triggerFill.1,
             spawned := b1.triggerFill.2, trace := [] }
  else
    let b4 := intf b.slowWaitState
    if b4.leftCount ≠ 0 then
      match b4.popNextId with
      | none => none
      | some (id, b5) =>
        some { result := Except.ok id, state := b5, spawned := b.triggerFill.2,
               trace := [WaitEvent.enqueue, WaitEvent.timedWait (waitMillis wakeDelay),
                 WaitEvent.retry] }
    else
      some { result := Except.error "no available id", state := b4,
             spawned := b.triggerFill.2,
             trace := [WaitEvent.enqueue, WaitEvent.timedWait (waitMillis wakeDelay),
               WaitEvent.retry] }

/-- Exit record of the refill worker: its final allocator state and the
number of store advances it attempted. -/
structure FillOutcome where
  state : BizAlloc
  attempts : Nat
  deriving Repr, DecidableEq

/-- The loop of `fillSegments`.  `advances` lists the outcome of each
store call `newSegment` would make, in order (`Except.ok (maxId, step)`
for a successful `Data.NextId`); the loop consumes one entry per
attempt and returns `none` if it would call the store with no outcome
left.  `failTimes` counts consecutive failures: it is incremented on
each failure, reset to 0 on each success, and once it exceeds 3 the
worker wakes all waiters and leaves.  On success the new segment is
appended and all waiters are woken; the worker leaves when the buffer
holds more than one segment. -/
def BizAlloc.fillLoop (b : BizAlloc) (failTimes : Int) (attempts : Nat) :
    List (Except String (Int × Int)) → Option FillOutcome
  | [] =>
    if b.segments.length ≤ 1 then none
    else some { state := b.leave, attempts := attempts }
  | adv :: rest =>
    if b.segments.length ≤ 1 then
      match adv with
      | Except.error _ =>
        if failTimes + 1 > 3 then
          some { state := b.wakeup.leave, attempts := attempts + 1 }
        else
          b.fillLoop (failTimes + 1) (attempts + 1) rest
      | Except.ok (maxId, step) =>
        let b2 := ({ b with segments :=
          b.segments ++ [BizAlloc.newSegment maxId step] }).wakeup
        if b2.segments.length > 1 then
          some { state := b2.leave, attempts := attempts + 1 }
        else
          b2.fillLoop 0 (attempts + 1) rest
    else
      some { state := b.leave, attempts := attempts }

/-- `fillSegments` enters its loop with `failTimes = 0`. -/
def BizAlloc.fillSegments (b : BizAlloc)
    (advances : List (Except String (Int × Int))) : Option FillOutcome :=
  b.fillLoop 0 0 advances

/-- Go struct `Alloc`: the registry map `bizMap`, modelled as an
association list (mutex dropped). -/
structure Alloc where
  bizMap : List (String × BizAlloc)
  deriving Repr, DecidableEq

/-- The registry lookup at the top of `Alloc.NextId`: resolve the tag,
creating and inserting a fresh `BizAlloc` when absent. -/
def Alloc.resolve (a : Alloc) (bizTag : String) : BizAlloc × Alloc :=
  match mapGet a.bizMap bizTag with
  | some bz => (bz, a)
  | none =>
    let bz : BizAlloc :=
      { bizTag := bizTag, segments := [], isAllocating := false, waiting := 0 }
    (bz, { bizMap := a.bizMap ++ [(bizTag, bz)] })

/-- Go shares the `*BizAlloc` pointer between the map and the caller;
the mutation performed by `nextId` is therefore visible in the map.
`setBiz` writes the mutated allocator back over its entry. -/
def setBiz (l : List (String × BizAlloc)) (bizTag : String) (bz : BizAlloc) :
    List (String × BizAlloc) :=
  l.map (fun kv => if kv.1 = bizTag then (kv.1, bz) else kv)

/-- `Alloc.NextId`: resolve-or-create the tag allocator, call its
`nextId`, then compose `nextId = nextId + time.Now().UnixMilli()`
(on error the raw value is the Go zero value 0; both the value and the
error are returned, as in Go).  `nowMillis` is the wall clock sample. -/
def Alloc.NextId (a : Alloc) (bizTag : String) (intf : BizAlloc → BizAlloc)
    (wakeDelay nowMillis : Int) : Option (Int × Option String × Alloc) :=
  let rb := a.resolve bizTag
  match rb.1.nextId intf wakeDelay with
  | none => none
  | some r =>
    let raw : Int :=
      match r.result with
      | Except.ok id => id
      | Except.error _ => 0
    let errMsg : Option String :=
      match r.result with
      | Except.ok _ => none
      | Except.error e => some e
    some (raw + nowMillis, errMsg, { bizMap := setBiz rb.2.bizMap bizTag r.state })

/-- `Alloc.LeftCount`: plain lookup, `0` when the tag has no allocator
(`bizAlloc` stays nil and `leftCount` keeps its zero value); the
registry map is returned unchanged. -/
def Alloc.LeftCount (a : Alloc) (bizTag : String) : Int × Alloc :=
  match mapGet a.bizMap bizTag with
  | none => (0, a)
  | some bz => (bz.leftCountWithMutex, a)

/-- One critical section touching a `BizAlloc`, as executed by the
source under the allocator mutex.  `pop` is the guarded
`if leftCount() != 0 then popNextId()` of `nextId` (both call sites);
`append` is the refill worker appending `newSegment maxId step` and
waking the waiters (the worker observed `len(segments) <= 1` under the
mutex and is single-flight, and consumers only shrink the buffer, so
the bound still holds when it appends); `enqueue` is the slow path
queueing its wakeup handle; `spawn` is the guarded refill trigger;
`giveup` is the worker exiting after exhausting its failure budget. -/
inductive Cmd where
  | pop
  | append (maxId step : Int)
  | enqueue
  | spawn
  | giveup
  deriving Repr, DecidableEq

/-- Allocator state instrumented for observation: `retired` counts the
segments dropped from the buffer front so far (so it is the ordinal of
the segment instance currently at the front), and `idLog` records every
popped id tagged with the ordinal of the segment that served it. -/
structure AllocModel where
  biz : BizAlloc
  retired : Nat
  idLog : List (Nat × Int)
  deriving Repr, DecidableEq

/-- Execute one critical section. -/
def stepCmd (m : AllocModel) : Cmd → AllocModel
  | Cmd.pop =>
    if m.biz.leftCount ≠ 0 then
      match m.biz.popNextId with
      | some (id, b2) =>
        { biz := b2,
          retired :=
            if b2.segments.length < m.biz.segments.length then m.retired + 1
            else m.retired,
          idLog := m.idLog ++ [(m.retired, id)] }
      | none => m
    else m
  | Cmd.append maxId step =>
    if m.biz.segments.length ≤ 1 then
      { m with biz :=
          ({ m.biz with segments :=
            m.biz.segments ++ [BizAlloc.newSegment maxId step] }).wakeup }
    else m
  | Cmd.enqueue => { m with biz := m.biz.enqueueWaiter }
  | Cmd.spawn =>
    if m.biz.segments.length ≤ 1 ∧ m.biz.isAllocating = false then
      { m with biz := { m.biz with isAllocating := true } }
    else m
  | Cmd.giveup => { m with biz := m.biz.wakeup.leave }

/-- Execute a trace of critical sections. -/
def runCmds (m : AllocModel) : List Cmd → AllocModel
  | [] => m
  | c :: cs => runCmds (stepCmd m c) cs

/-- The `BizAlloc` that `Alloc.NextId` creates for an unseen tag. -/
def initBiz (tag : String) : BizAlloc :=
  { bizTag := tag, segments := [], isAllocating := false, waiting := 0 }

/-- A freshly created allocator with empty instrumentation. -/
def initModel (tag : String) : AllocModel :=
  { biz := initBiz tag, retired := 0, idLog := [] }

/-- A live buffered segment: the cursor lies inside the window. -/
def liveSeg (s : Segment) : Prop :=
  s.left ≤ s.left + s.offset ∧ s.left + s.offset < s.right

instance (s : Segment) : Decidable (liveSeg s) := by
  unfold liveSeg; infer_instance

/-- Every buffered segment is live. -/
def allLive (b : BizAlloc) : Prop :=
  ∀ s ∈ b.segments, liveSeg s

instance (b : BizAlloc) : Decidable (allLive b) := by
  unfold allLive; exact List.decidableBAll _ _

/-- A command whose appended window is nonempty (`step > 0`). -/
def stepPos : Cmd → Prop
  | Cmd.append _ step => 0 < step
  | _ => True

instance (c : Cmd) : Decidable (stepPos c) := by
  unfold stepPos; cases c <;> infer_instance

/-- Ids tagged with the same segment ordinal were logged in strictly
increasing order. -/
def ordIdRel (p q : Nat × Int) : Prop :=
  p.1 = q.1 → p.2 < q.2

/-- Instrumentation invariant tying the id log to the buffer front:
logged ordinals never exceed the current front ordinal, ids logged for
the current front segment lie strictly below its cursor, an empty
buffer means no log entry carries the current ordinal, and ids of a
common ordinal are pairwise strictly increasing. -/
def logInv (m : AllocModel) : Prop :=
  (∀ p ∈ m.idLog, p.1 ≤ m.retired) ∧
  (∀ s rest, m.biz.segments = s :: rest →
    ∀ p ∈ m.idLog, p.1 = m.retired → p.2 < s.left + s.offset) ∧
  (m.biz.segments = [] → ∀ p ∈ m.idLog, p.1 < m.retired) ∧
  List.Pairwise ordIdRel m.idLog

/-- A small warm allocator used to evaluate the operations on concrete
input: one live segment `[0, 3)` with cursor at its left edge. -/
def demoBiz : BizAlloc :=
  { bizTag := "t", segments := [{ offset := 0, left := 0, right := 3 }],
    isAllocating := false, waiting := 0 }

/-- The demo allocator after one pop: cursor advanced, refill spawned. -/
def demoBizPopped : BizAlloc :=
  { bizTag := "t", segments := [{ offset := 1, left := 0, right := 3 }],
    isAllocating := true, waiting := 0 }

/-- An empty allocator whose refill worker is running and which has two
queued waiters, about to watch the store fail. -/
def demoStarved : BizAlloc :=
  { bizTag := "t", segments := [], isAllocating := true, waiting := 2 }

/-- The state `demoStarved` reaches after the worker gives up. -/
def demoGivenUp : BizAlloc :=
  { bizTag := "t", segments := [], isAllocating := false, waiting := 0 }

/-- Four consecutive store failures. -/
def demoFailures : List (Except String (Int × Int)) :=
  [Except.error "down", Except.error "down", Except.error "down",
    Except.error "down"]

/-- A fresh allocator after one failed slow-path call: refill
triggered, one waiter was queued. -/
def demoFreshWaited : BizAlloc :=
  { bizTag := "t", segments := [], isAllocating := true, waiting := 1 }

instance {ε α : Type} [DecidableEq ε] [DecidableEq α] : DecidableEq (Except ε α)
  | Except.ok x, Except.ok y =>
    if h : x = y then isTrue (by rw [h])
    else isFalse (by intro hc; cases hc; exact h rfl)
  | Except.ok _, Except.error _ => isFalse (by intro hc; cases hc)
  | Except.error _, Except.ok _ => isFalse (by intro hc; cases hc)
  | Except.error e, Except.error f =>
    if h : e = f then isTrue (by rw [h])
    else isFalse (by intro hc; cases hc; exact h rfl)

theorem leftCount_nil (b : BizAlloc) (h : b.segments = []) : b.leftCount = 0 := by
  simp [BizAlloc.leftCount, h]

theorem leftCount_cons (b : BizAlloc) (s : Segment) (rest : List Segment)
    (h : b.segments = s :: rest) :
    b.leftCount = (s.right - s.left - s.offset) +
      ((rest.map (fun t => t.right - t.left - t.offset)).sum) := by
  simp [BizAlloc.leftCount, h]

theorem popNextId_eq (b : BizAlloc) (s : Segment) (rest : List Segment)
    (hseg : b.segments = s :: rest) :
    b.popNextId = some (s.left + s.offset,
      { b with segments :=
          if s.left + s.offset + 1 ≥ s.right then rest
          else { s with offset := s.offset + 1 } :: rest }) := by
  unfold BizAlloc.popNextId
  rw [hseg]
  by_cases hb : s.left + s.offset + 1 ≥ s.right <;> simp [hb]

theorem popNextId_isSome (b : BizAlloc) (h : b.segments ≠ []) :
    ∃ id b2, b.popNextId = some (id, b2) := by
  cases hs : b.segments with
  | nil => exact absurd hs h
  | cons s rest => exact ⟨_, _, popNextId_eq b s rest hs⟩

theorem popNextId_length_le (b : BizAlloc) (id : Int) (b2 : BizAlloc)
    (h : b.popNextId = some (id, b2)) :
    b2.segments.length ≤ b.segments.length := by
  cases hs : b.segments with
  | nil => simp [BizAlloc.popNextId, hs] at h
  | cons s rest =>
    rw [popNextId_eq b s rest hs] at h
    simp only [Option.some.injEq, Prod.mk.injEq] at h
    obtain ⟨rfl, rfl⟩ := h
    split <;> simp

theorem popNextId_allLive (b : BizAlloc) (id : Int) (b2 : BizAlloc)
    (h : b.popNextId = some (id, b2)) (hl : allLive b) : allLive b2 := by
  cases hs : b.segments with
  | nil => simp [BizAlloc.popNextId, hs] at h
  | cons s rest =>
    rw [popNextId_eq b s rest hs] at h
    simp only [Option.some.injEq, Prod.mk.injEq] at h
    obtain ⟨rfl, rfl⟩ := h
    have hrest : ∀ t ∈ rest, liveSeg t := by
      intro t ht; exact hl t (by rw [hs]; exact List.mem_cons_of_mem _ ht)
    have hfront : liveSeg s := hl s (by rw [hs]; exact List.mem_cons_self _ _)
    intro t ht
    simp only at ht
    split at ht
    · exact hrest t ht
    · rename_i hkeep
      rcases List.mem_cons.mp ht with rfl | hmem
      · obtain ⟨hf1, hf2⟩ := hfront
        constructor <;> simp <;> omega
      · exact hrest t hmem

theorem popNextId_leftCount_dec (b : BizAlloc) (id : Int) (b2 : BizAlloc)
    (h : b.popNextId = some (id, b2)) (hl : allLive b) :
    b2.leftCount = b.leftCount - 1 := by
  cases hs : b.segments with
  | nil => simp [BizAlloc.popNextId, hs] at h
  | cons s rest =>
    rw [popNextId_eq b s rest hs] at h
    simp only [Option.some.injEq, Prod.mk.injEq] at h
    obtain ⟨rfl, rfl⟩ := h
    have hfront : liveSeg s := hl s (by rw [hs]; exact List.mem_cons_self _ _)
    obtain ⟨hf1, hf2⟩ := hfront
    rw [leftCount_cons b s rest hs]
    split
    · rename_i hdrop
      simp [BizAlloc.leftCount]
      omega
    · rename_i hkeep
      simp [BizAlloc.leftCount]
      omega

/-- Claim C1: on an allocator whose front segment is live
(`left + offset < right`), one `popNextId` returns
`id = left + offset`, advances the cursor of that segment by exactly one
(its new offset is `offset + 1`), and drops the front segment from the
buffer exactly when the post-increment cursor has reached the right
bound (`left + offset + 1 >= right`); otherwise the incremented
segment stays at the front. -/
theorem popNextId_take (b : BizAlloc) (s : Segment) (rest : List Segment)
    (hseg : b.segments = s :: rest) (_hlive : s.left + s.offset < s.right) :
    b.popNextId = some (s.left + s.offset,
      { b with segments :=
          if s.left + s.offset + 1 ≥ s.right then rest
          else { s with offset := s.offset + 1 } :: rest }) :=
  popNextId_eq b s rest hseg

theorem popNextId_take_witness :
    ((0 : Int) + 0 < 10) ∧
    ({ bizTag := "t", segments := [{ offset := 0, left := 0, right := 10 }],
        isAllocating := false, waiting := 0 } : BizAlloc).popNextId =
      some ((0 : Int) + 0,
        { bizTag := "t",
          segments :=
            if (0 : Int) + 0 + 1 ≥ 10 then []
            else [{ offset := (0 : Int) + 1, left := 0, right := 10 }],
          isAllocating := false, waiting := 0 }) :=
  ⟨by norm_num,
    popNextId_take
      { bizTag := "t", segments := [{ offset := 0, left := 0, right := 10 }],
        isAllocating := false, waiting := 0 }
      { offset := 0, left := 0, right := 10 } [] rfl (by norm_num)⟩

/-- Claim C3: a successful store advance returning `(maxId, step)`
yields, through `newSegment`, exactly the window
`[maxId - step, maxId)`: left bound `maxId - step`, right bound
`maxId`, and consumption offset 0 (the Go zero value). -/
theorem newSegment_window (store : List (String × SegRow)) (bizTag : String)
    (store2 : List (String × SegRow)) (maxId step : Int)
    (_h : Data.NextId store bizTag = Except.ok (store2, maxId, step)) :
    (BizAlloc.newSegment maxId step).left = maxId - step ∧
    (BizAlloc.newSegment maxId step).right = maxId ∧
    (BizAlloc.newSegment maxId step).offset = 0 :=
  ⟨rfl, rfl, rfl⟩

theorem newSegment_window_witness :
    (Data.NextId [("test", { max_id := 0, step := 100 })] "test" =
      Except.ok ([("test", { max_id := 100, step := 100 })], 100, 100)) ∧
    ((BizAlloc.newSegment 100 100).left = 100 - 100 ∧
     (BizAlloc.newSegment 100 100).right = 100 ∧
     (BizAlloc.newSegment 100 100).offset = 0) :=
  ⟨by decide,
    newSegment_window [("test", { max_id := 0, step := 100 })] "test"
      [("test", { max_id := 100, step := 100 })] 100 100 (by decide)⟩

theorem stepCmd_len_le (m : AllocModel) (c : Cmd)
    (h : m.biz.segments.length ≤ 2) : (stepCmd m c).biz.segments.length ≤ 2 := by
  cases c with
  | pop =>
    simp only [stepCmd]
    split
    · cases hp : m.biz.popNextId with
      | none => simp only [hp]; exact h
      | some p =>
        obtain ⟨id, b2⟩ := p
        have hle := popNextId_length_le m.biz id b2 hp
        simp only [hp]
        omega
    · exact h
  | append maxId step =>
    simp only [stepCmd]
    split
    · rename_i hlen
      simp [BizAlloc.wakeup]
      omega
    · exact h
  | enqueue => simpa [stepCmd, BizAlloc.enqueueWaiter] using h
  | spawn =>
    simp only [stepCmd]
    split <;> simpa using h
  | giveup => simpa [stepCmd, BizAlloc.wakeup, BizAlloc.leave] using h

theorem runCmds_len_le (cmds : List Cmd) (m : AllocModel)
    (h : m.biz.segments.length ≤ 2) :
    (runCmds m cmds).biz.segments.length ≤ 2 := by
  induction cmds generalizing m with
  | nil => exact h
  | cons c cs ih => exact ih _ (stepCmd_len_le m c h)

/-- Claim C4: starting from the empty buffer of a freshly created tag
allocator, every trace of critical sections (pops guarded by
`leftCount() != 0`, worker appends guarded by the observed
`len(segments) <= 1`, waiter queueing, refill trigger, give-up) keeps
`0 <= len(segments) <= 2`. -/
theorem buffer_bounded (tag : String) (cmds : List Cmd) :
    0 ≤ (runCmds (initModel tag) cmds).biz.segments.length ∧
    (runCmds (initModel tag) cmds).biz.segments.length ≤ 2 :=
  ⟨Nat.zero_le _, runCmds_len_le cmds _ (by simp [initModel, initBiz])⟩

theorem stepCmd_allLive (m : AllocModel) (c : Cmd) (hc : stepPos c)
    (h : allLive m.biz) : allLive (stepCmd m c).biz := by
  cases c with
  | pop =>
    simp only [stepCmd]
    split
    · cases hp : m.biz.popNextId with
      | none => simp only [hp]; exact h
      | some p =>
        obtain ⟨id, b2⟩ := p
        simp only [hp]
        exact popNextId_allLive m.biz id b2 hp h
    · exact h
  | append maxId step =>
    simp only [stepCmd]
    split
    · intro t ht
      simp only [BizAlloc.wakeup, List.mem_append, List.mem_singleton] at ht
      rcases ht with hmem | rfl
      · exact h t hmem
      · have hstep : (0 : Int) < step := hc
        simp only [liveSeg, BizAlloc.newSegment]
        omega
    · exact h
  | enqueue => simpa [stepCmd, BizAlloc.enqueueWaiter, allLive] using h
  | spawn =>
    simp only [stepCmd]
    split <;> simpa [allLive] using h
  | giveup => simpa [stepCmd, BizAlloc.wakeup, BizAlloc.leave, allLive] using h

theorem runCmds_allLive (cmds : List Cmd) (m : AllocModel)
    (hc : ∀ c ∈ cmds, stepPos c) (h : allLive m.biz) :
    allLive (runCmds m cmds).biz := by
  induction cmds generalizing m with
  | nil => exact h
  | cons c cs ih =>
    exact ih _ (fun d hd => hc d (List.mem_cons_of_mem _ hd))
      (stepCmd_allLive m c (hc c (List.mem_cons_self _ _)) h)

/-- Claim C5: when every window appended by the refill worker is
nonempty (its store advance had `step > 0`), every segment in the
buffer of a freshly created tag allocator satisfies
`left <= left + offset < right` at every observable moment, i.e. every
buffered segment is live and no retired segment (one whose cursor
reached `left + offset >= right`, which `popNextId` drops at once)
remains in the buffer. -/
theorem segments_live (tag : String) (cmds : List Cmd)
    (hpos : ∀ c ∈ cmds, stepPos c) :
    allLive (runCmds (initModel tag) cmds).biz :=
  runCmds_allLive cmds _ hpos (by intro s hs; simp [initModel, initBiz] at hs)

theorem segments_live_witness :
    (∀ c ∈ [Cmd.append 10 10, Cmd.pop], stepPos c) ∧
    allLive (runCmds (initModel "t") [Cmd.append 10 10, Cmd.pop]).biz :=
  ⟨by decide, segments_live "t" [Cmd.append 10 10, Cmd.pop] (by decide)⟩

theorem stepCmd_pop_biz (m : AllocModel) (id : Int) (b2 : BizAlloc)
    (hne : m.biz.leftCount ≠ 0) (hp : m.biz.popNextId = some (id, b2)) :
    (stepCmd m Cmd.pop).biz = b2 := by
  simp [stepCmd, hne, hp]

theorem popN_leftCount (N : Nat) (m : AllocModel)
    (hl : allLive m.biz) (hN : (N : Int) ≤ m.biz.leftCount) :
    (runCmds m (List.replicate N Cmd.pop)).biz.leftCount =
      m.biz.leftCount - N := by
  induction N generalizing m with
  | zero => simp [runCmds]
  | succ n ih =>
    have hne : m.biz.leftCount ≠ 0 := by
      intro h0
      rw [h0] at hN
      push_cast at hN
      omega
    have hnonempty : m.biz.segments ≠ [] := fun hs => hne (leftCount_nil _ hs)
    obtain ⟨id, b2, hp⟩ := popNextId_isSome m.biz hnonempty
    have hdec := popNextId_leftCount_dec m.biz id b2 hp hl
    have hlive2 := popNextId_allLive m.biz id b2 hp hl
    have hbiz := stepCmd_pop_biz m id b2 hne hp
    rw [List.replicate_succ]
    show (runCmds (stepCmd m Cmd.pop) (List.replicate n Cmd.pop)).biz.leftCount = _
    have hrec := ih (stepCmd m Cmd.pop) (by rw [hbiz]; exact hlive2)
      (by rw [hbiz, hdec]; push_cast at hN ⊢; omega)
    rw [hrec, hbiz, hdec]
    push_cast
    ring

/-- Claim C6: `leftCount` is by definition the sum of
`right - left - offset` over the buffered segments; on a buffer of live
segments each successful `popNextId` decreases it by exactly one, and
serving `N` ids by `N` guarded pops with no interleaved refill leaves
`leftCount = R - N` when it started at `R >= N`. -/
theorem remaining_round_trip (b : BizAlloc) (N : Nat)
    (hl : allLive b) (hN : (N : Int) ≤ b.leftCount) :
    b.leftCount = (b.segments.map (fun s => s.right - s.left - s.offset)).sum ∧
    (∀ id b2, b.popNextId = some (id, b2) → b2.leftCount = b.leftCount - 1) ∧
    (runCmds { biz := b, retired := 0, idLog := [] }
        (List.replicate N Cmd.pop)).biz.leftCount = b.leftCount - N :=
  ⟨rfl,
    fun id b2 hp => popNextId_leftCount_dec b id b2 hp hl,
    popN_leftCount N { biz := b, retired := 0, idLog := [] } hl hN⟩

theorem remaining_round_trip_witness :
    (allLive demoBiz ∧ ((2 : Nat) : Int) ≤ demoBiz.leftCount) ∧
    (demoBiz.leftCount =
        (demoBiz.segments.map (fun s => s.right - s.left - s.offset)).sum ∧
      (∀ id b2, demoBiz.popNextId = some (id, b2) →
        b2.leftCount = demoBiz.leftCount - 1) ∧
      (runCmds { biz := demoBiz, retired := 0, idLog := [] }
          (List.replicate 2 Cmd.pop)).biz.leftCount =
        demoBiz.leftCount - ((2 : Nat) : Int)) :=
  ⟨⟨by decide, by decide⟩,
    remaining_round_trip demoBiz 2 (by decide) (by decide)⟩

theorem stepCmd_pop_drop (m : AllocModel) (s : Segment) (rest : List Segment)
    (hsegs : m.biz.segments = s :: rest) (hne : m.biz.leftCount ≠ 0)
    (hdrop : s.left + s.offset + 1 ≥ s.right) :
    stepCmd m Cmd.pop =
      { biz := { m.biz with segments := rest }, retired := m.retired + 1,
        idLog := m.idLog ++ [(m.retired, s.left + s.offset)] } := by
  simp [stepCmd, hne, popNextId_eq m.biz s rest hsegs, hdrop, hsegs]

theorem stepCmd_pop_keep (m : AllocModel) (s : Segment) (rest : List Segment)
    (hsegs : m.biz.segments = s :: rest) (hne : m.biz.leftCount ≠ 0)
    (hkeep : ¬ s.left + s.offset + 1 ≥ s.right) :
    stepCmd m Cmd.pop =
      { biz := { m.biz with segments := { s with offset := s.offset + 1 } :: rest },
        retired := m.retired,
        idLog := m.idLog ++ [(m.retired, s.left + s.offset)] } := by
  simp [stepCmd, hne, popNextId_eq m.biz s rest hsegs, hkeep, hsegs]

theorem logInv_init (tag : String) : logInv (initModel tag) := by
  refine ⟨?_, ?_, ?_, ?_⟩ <;> simp [initModel, initBiz]

theorem stepCmd_logInv (m : AllocModel) (c : Cmd) (h : logInv m) :
    logInv (stepCmd m c) := by
  obtain ⟨h1, h2, h3, h4⟩ := h
  cases c with
  | pop =>
    by_cases hne : m.biz.leftCount ≠ 0
    · cases hsegs : m.biz.segments with
      | nil =>
        have hnone : m.biz.popNextId = none := by
          unfold BizAlloc.popNextId; rw [hsegs]
        simp only [stepCmd, if_pos hne, hnone]
        exact ⟨h1, h2, h3, h4⟩
      | cons s rest =>
        by_cases hdrop : s.left + s.offset + 1 ≥ s.right
        · rw [stepCmd_pop_drop m s rest hsegs hne hdrop]
          refine ⟨?_, ?_, ?_, ?_⟩
          · intro p hp
            rcases List.mem_append.mp hp with hmem | hmem
            · exact Nat.le_succ_of_le (h1 p hmem)
            · rcases List.mem_singleton.mp hmem with rfl
              exact Nat.le_succ _
          · intro s2 rest2 hseq p hp hpr
            dsimp only at hpr
            exfalso
            rcases List.mem_append.mp hp with hmem | hmem
            · have := h1 p hmem
              omega
            · rcases List.mem_singleton.mp hmem with rfl
              dsimp only at hpr
              omega
          · intro _ p hp
            rcases List.mem_append.mp hp with hmem | hmem
            · exact Nat.lt_succ_of_le (h1 p hmem)
            · rcases List.mem_singleton.mp hmem with rfl
              exact Nat.lt_succ_self _
          · refine List.pairwise_append.mpr ⟨h4, List.pairwise_singleton _ _, ?_⟩
            intro p hp q hq
            rcases List.mem_singleton.mp hq with rfl
            intro hpr
            exact h2 s rest hsegs p hp hpr
        · rw [stepCmd_pop_keep m s rest hsegs hne hdrop]
          refine ⟨?_, ?_, ?_, ?_⟩
          · intro p hp
            rcases List.mem_append.mp hp with hmem | hmem
            · exact h1 p hmem
            · rcases List.mem_singleton.mp hmem with rfl
              exact Nat.le_refl _
          · intro s2 rest2 hseq p hp hpr
            dsimp only at hpr hseq
            injection hseq with he1 he2
            subst he1
            dsimp only
            rcases List.mem_append.mp hp with hmem | hmem
            · have := h2 s rest hsegs p hmem hpr
              omega
            · rcases List.mem_singleton.mp hmem with rfl
              dsimp only
              omega
          · intro habs
            simp at habs
          · refine List.pairwise_append.mpr ⟨h4, List.pairwise_singleton _ _, ?_⟩
            intro p hp q hq
            rcases List.mem_singleton.mp hq with rfl
            intro hpr
            exact h2 s rest hsegs p hp hpr
    · simp only [stepCmd, if_neg hne]
      exact ⟨h1, h2, h3, h4⟩
  | append maxId step =>
    simp only [stepCmd]
    split
    · refine ⟨h1, ?_, ?_, h4⟩
      · intro s2 rest2 hseq p hp hpr
        simp only [BizAlloc.wakeup] at hseq
        cases hsegs : m.biz.segments with
        | nil =>
          exact absurd hpr (Nat.ne_of_lt (h3 hsegs p hp))
        | cons t ts =>
          rw [hsegs] at hseq
          rw [List.cons_append] at hseq
          injection hseq with he1 he2
          subst he1
          exact h2 t ts hsegs p hp hpr
      · intro habs
        simp only [BizAlloc.wakeup] at habs
        simp at habs
    · exact ⟨h1, h2, h3, h4⟩
  | enqueue => exact ⟨h1, h2, h3, h4⟩
  | spawn =>
    simp only [stepCmd]
    split
    · exact ⟨h1, h2, h3, h4⟩
    · exact ⟨h1, h2, h3, h4⟩
  | giveup => exact ⟨h1, h2, h3, h4⟩

theorem runCmds_logInv (cmds : List Cmd) (m : AllocModel) (h : logInv m) :
    logInv (runCmds m cmds) := by
  induction cmds generalizing m with
  | nil => exact h
  | cons c cs ih => exact ih _ (stepCmd_logInv m c h)

/-- Claim C2: along any trace of critical sections on a freshly created
tag allocator, any two raw ids logged for the same segment instance
(same retirement ordinal) are strictly increasing in the order they
were produced: the per-segment id sequence is strictly monotone. -/
theorem monotone_per_segment (tag : String) (cmds : List Cmd) :
    List.Pairwise ordIdRel (runCmds (initModel tag) cmds).idLog :=
  (runCmds_logInv cmds (initModel tag) (logInv_init tag)).2.2.2

theorem leftCount_ne_imp_nonempty (b : BizAlloc) (h : b.leftCount ≠ 0) :
    b.segments ≠ [] :=
  fun hs => h (leftCount_nil b hs)

theorem slowWaitState_waiting (b : BizAlloc) :
    b.slowWaitState.waiting = b.waiting + 1 := by
  unfold BizAlloc.slowWaitState BizAlloc.triggerFill BizAlloc.enqueueWaiter
  split <;> rfl

/-- Claim C7: when the fast path finds no id (`leftCount() = 0`),
`nextId` queues exactly one wakeup handle (the published state has one
more waiter), waits at most 2000 ms (the `select` over the handle and
the 2-second timer), and performs exactly one retry — the trace holds
one enqueue, one bounded wait and one retry, never more; at the retry
it pops and returns an id when `Remaining > 0` and otherwise fails
with the error `no available id`. -/
theorem nextId_slow_path (b : BizAlloc) (intf : BizAlloc → BizAlloc)
    (wakeDelay : Int) (hempty : b.leftCount = 0)
    (hnat : 0 ≤ (intf b.slowWaitState).leftCount) :
    b.slowWaitState.waiting = b.waiting + 1 ∧
    waitMillis wakeDelay ≤ 2000 ∧
    ∃ r, b.nextId intf wakeDelay = some r ∧
      r.trace = [WaitEvent.enqueue, WaitEvent.timedWait (waitMillis wakeDelay),
        WaitEvent.retry] ∧
      (0 < (intf b.slowWaitState).leftCount →
        ∃ id b5, (intf b.slowWaitState).popNextId = some (id, b5) ∧
          r.result = Except.ok id ∧ r.state = b5) ∧
      ((intf b.slowWaitState).leftCount ≤ 0 →
        r.result = Except.error "no available id") := by
  refine ⟨slowWaitState_waiting b, min_le_right _ _, ?_⟩
  unfold BizAlloc.nextId
  rw [if_neg (fun hc => hc hempty)]
  dsimp only
  by_cases hb4 : (intf b.slowWaitState).leftCount ≠ 0
  · obtain ⟨id, b5, hp⟩ :=
      popNextId_isSome _ (leftCount_ne_imp_nonempty _ hb4)
    rw [if_pos hb4, hp]
    refine ⟨_, rfl, rfl, ?_, ?_⟩
    · intro _
      exact ⟨id, b5, rfl, rfl, rfl⟩
    · intro h0
      exact absurd (le_antisymm h0 hnat) hb4
  · rw [if_neg hb4]
    refine ⟨_, rfl, rfl, ?_, ?_⟩
    · intro h0
      exact absurd (not_not.mp hb4) (by omega)
    · intro _
      rfl

theorem nextId_slow_path_witness :
    ((initBiz "t").leftCount = 0 ∧
      0 ≤ ((initBiz "t").slowWaitState).leftCount) ∧
    ((initBiz "t").slowWaitState.waiting = (initBiz "t").waiting + 1 ∧
     waitMillis 9999 ≤ 2000 ∧
     ∃ r, (initBiz "t").nextId (fun x => x) 9999 = some r ∧
       r.trace = [WaitEvent.enqueue, WaitEvent.timedWait (waitMillis 9999),
         WaitEvent.retry] ∧
       (0 < ((initBiz "t").slowWaitState).leftCount →
         ∃ id b5, ((initBiz "t").slowWaitState).popNextId = some (id, b5) ∧
           r.result = Except.ok id ∧ r.state = b5) ∧
       (((initBiz "t").slowWaitState).leftCount ≤ 0 →
         r.result = Except.error "no available id")) :=
  ⟨⟨by decide, by decide⟩,
    nextId_slow_path (initBiz "t") (fun x => x) 9999 (by decide) (by decide)⟩

theorem fillLoop_exit (advances : List (Except String (Int × Int)))
    (b : BizAlloc) (failTimes : Int) (attempts : Nat) (out : FillOutcome)
    (hft : 0 ≤ failTimes)
    (h : b.fillLoop failTimes attempts advances = some out) :
    out.state.isAllocating = false ∧
    (2 ≤ out.state.segments.length ∨
      (out.state.waiting = 0 ∧
        (attempts : Int) + 4 - failTimes ≤ (out.attempts : Int))) := by
  induction advances generalizing b failTimes attempts with
  | nil =>
    simp only [BizAlloc.fillLoop] at h
    split at h
    · cases h
    · rename_i hlen
      injection h with h2
      subst h2
      refine ⟨rfl, Or.inl ?_⟩
      dsimp only [BizAlloc.leave]
      omega
  | cons adv rest ih =>
    simp only [BizAlloc.fillLoop] at h
    split at h
    · rename_i hlen
      cases adv with
      | error msg =>
        dsimp only at h
        split at h
        · rename_i hgt
          injection h with h2
          subst h2
          refine ⟨rfl, Or.inr ⟨rfl, ?_⟩⟩
          dsimp only [BizAlloc.wakeup, BizAlloc.leave]
          push_cast
          omega
        · obtain ⟨hA, hB⟩ := ih b (failTimes + 1) (attempts + 1) (by omega) h
          refine ⟨hA, ?_⟩
          rcases hB with hl | ⟨hw, hr⟩
          · exact Or.inl hl
          · refine Or.inr ⟨hw, ?_⟩
            push_cast at hr ⊢
            omega
      | ok pr =>
        obtain ⟨maxId, step⟩ := pr
        dsimp only at h
        split at h
        · rename_i hgt1
          injection h with h2
          subst h2
          refine ⟨rfl, Or.inl ?_⟩
          dsimp only [BizAlloc.leave]
          omega
        · obtain ⟨hA, hB⟩ := ih _ 0 (attempts + 1) le_rfl h
          refine ⟨hA, ?_⟩
          rcases hB with hl | ⟨hw, hr⟩
          · exact Or.inl hl
          · refine Or.inr ⟨hw, ?_⟩
            push_cast at hr ⊢
            omega
    · rename_i hlen
      injection h with h2
      subst h2
      refine ⟨rfl, Or.inl ?_⟩
      dsimp only [BizAlloc.leave]
      omega

/-- Claim C8: the refill worker counts consecutive store failures
(incremented on each failed advance, reset to 0 on each success) and
gives up once the counter exceeds 3 — on the 4th consecutive failure
it wakes every queued waiter, clears the refilling flag and exits — so
every completed run ends with `isAllocating = false` and either at
least 2 buffered segments or at least 4 store attempts (the waiter
queue being emptied on the give-up path). -/
theorem fillSegments_budget (b : BizAlloc)
    (advances : List (Except String (Int × Int))) (out : FillOutcome)
    (h : b.fillSegments advances = some out) :
    out.state.isAllocating = false ∧
    (2 ≤ out.state.segments.length ∨
      (out.state.waiting = 0 ∧ 4 ≤ out.attempts)) := by
  obtain ⟨hA, hB⟩ := fillLoop_exit advances b 0 0 out le_rfl h
  refine ⟨hA, ?_⟩
  rcases hB with hl | ⟨hw, hr⟩
  · exact Or.inl hl
  · refine Or.inr ⟨hw, ?_⟩
    push_cast at hr
    omega

theorem fillSegments_budget_witness :
    demoStarved.fillSegments demoFailures =
      some { state := demoGivenUp, attempts := 4 } ∧
    (demoGivenUp.isAllocating = false ∧
      (2 ≤ demoGivenUp.segments.length ∨
        (demoGivenUp.waiting = 0 ∧ 4 ≤ (4 : Nat)))) :=
  ⟨by decide,
    fillSegments_budget demoStarved demoFailures
      { state := demoGivenUp, attempts := 4 } (by decide)⟩

/-- Claim C9: every id returned without error by the public
`Alloc.NextId` is the raw sequence id drawn from the segment plus the
wall clock sample in milliseconds, composed before returning
(`nextId = nextId + time.Now().UnixMilli()`). -/
theorem NextId_composes (a : Alloc) (bizTag : String)
    (intf : BizAlloc → BizAlloc) (wakeDelay nowMillis v : Int)
    (e : Option String) (a2 : Alloc)
    (h : Alloc.NextId a bizTag intf wakeDelay nowMillis = some (v, e, a2))
    (hok : e = none) :
    ∃ r, (a.resolve bizTag).1.nextId intf wakeDelay = some r ∧
      ∃ id, r.result = Except.ok id ∧ v = id + nowMillis := by
  subst hok
  unfold Alloc.NextId at h
  dsimp only at h
  cases hr : (a.resolve bizTag).1.nextId intf wakeDelay with
  | none => rw [hr] at h; cases h
  | some r =>
    rw [hr] at h
    dsimp only at h
    refine ⟨r, rfl, ?_⟩
    cases hres : r.result with
    | ok id =>
      rw [hres] at h
      dsimp only at h
      simp only [Option.some.injEq, Prod.mk.injEq] at h
      exact ⟨id, rfl, h.1.symm⟩
    | error msg =>
      rw [hres] at h
      dsimp only at h
      simp only [Option.some.injEq, Prod.mk.injEq] at h
      exact absurd h.2.1 (by simp)

theorem NextId_composes_witness :
    (Alloc.NextId { bizMap := [("t", demoBiz)] } "t" (fun x => x) 0 1000 =
      some (1000, none, { bizMap := [("t", demoBizPopped)] }) ∧
      (none : Option String) = none) ∧
    (∃ r, ((Alloc.resolve { bizMap := [("t", demoBiz)] } "t").1).nextId
        (fun x => x) 0 = some r ∧
      ∃ id, r.result = Except.ok id ∧ (1000 : Int) = id + 1000) :=
  ⟨⟨by decide, rfl⟩,
    NextId_composes { bizMap := [("t", demoBiz)] } "t" (fun x => x) 0 1000 1000
      none { bizMap := [("t", demoBizPopped)] } (by decide) rfl⟩

theorem mapGet_setBiz (l : List (String × BizAlloc)) (k : String)
    (bz : BizAlloc) :
    mapGet (setBiz l k bz) k = Option.map (fun _ => bz) (mapGet l k) := by
  induction l with
  | nil => rfl
  | cons kv rest ih =>
    obtain ⟨k0, v0⟩ := kv
    by_cases hk : k0 = k
    · simp [setBiz, mapGet, hk]
    · simp only [setBiz, List.map_cons] at ih ⊢
      simp [mapGet, hk, ih]

theorem mapGet_append_self {α : Type} (l : List (String × α)) (k : String)
    (v : α) (h : mapGet l k = none) : mapGet (l ++ [(k, v)]) k = some v := by
  induction l with
  | nil => simp [mapGet]
  | cons kv rest ih =>
    by_cases hk : kv.1 = k
    · simp [mapGet, hk] at h
    · simp only [mapGet, if_neg hk] at h
      simp only [List.cons_append, mapGet, if_neg hk]
      exact ih h

theorem resolve_missing (a : Alloc) (bizTag : String)
    (h : mapGet a.bizMap bizTag = none) :
    a.resolve bizTag =
      (initBiz bizTag,
        { bizMap := a.bizMap ++ [(bizTag, initBiz bizTag)] }) := by
  unfold Alloc.resolve initBiz
  rw [h]

/-- Claim C10: for a tag with no registry entry, `Alloc.LeftCount`
returns 0 and leaves the registry unchanged, whereas `Alloc.NextId` on
the same tag creates an allocator entry for it. -/
theorem LeftCount_missing_tag (a : Alloc) (bizTag : String)
    (intf : BizAlloc → BizAlloc) (wakeDelay nowMillis v : Int)
    (e : Option String) (a2 : Alloc)
    (hmiss : mapGet a.bizMap bizTag = none)
    (hnext : Alloc.NextId a bizTag intf wakeDelay nowMillis = some (v, e, a2)) :
    a.LeftCount bizTag = (0, a) ∧ mapGet a2.bizMap bizTag ≠ none := by
  constructor
  · unfold Alloc.LeftCount
    rw [hmiss]
  · unfold Alloc.NextId at hnext
    rw [resolve_missing a bizTag hmiss] at hnext
    dsimp only at hnext
    cases hcall : (initBiz bizTag).nextId intf wakeDelay with
    | none => rw [hcall] at hnext; cases hnext
    | some r =>
      rw [hcall] at hnext
      dsimp only at hnext
      simp only [Option.some.injEq, Prod.mk.injEq] at hnext
      have ha2 : a2 =
          { bizMap := setBiz (a.bizMap ++ [(bizTag, initBiz bizTag)])
              bizTag r.state } :=
        hnext.2.2.symm
      rw [ha2]
      show mapGet (setBiz (a.bizMap ++ [(bizTag, initBiz bizTag)])
        bizTag r.state) bizTag ≠ none
      rw [mapGet_setBiz, mapGet_append_self a.bizMap bizTag (initBiz bizTag) hmiss]
      simp

theorem LeftCount_missing_tag_witness :
    (mapGet ({ bizMap := [] } : Alloc).bizMap "t" = none ∧
      Alloc.NextId { bizMap := [] } "t" (fun x => x) 0 0 =
        some (0, some "no available id",
          { bizMap := [("t", demoFreshWaited)] })) ∧
    (Alloc.LeftCount { bizMap := [] } "t" = (0, { bizMap := [] }) ∧
      mapGet ({ bizMap := [("t", demoFreshWaited)] } : Alloc).bizMap "t" ≠
        none) :=
  ⟨⟨by decide, by decide⟩,
    LeftCount_missing_tag { bizMap := [] } "t" (fun x => x) 0 0 0
      (some "no available id") { bizMap := [("t", demoFreshWaited)] }
      (by decide) (by decide)⟩

end LeafSegment
